import Mathlib

/-!
Shallow embedding of SimpleShell (src/main.cpp): job table, signal-driven
reaper, process launcher, `killbg` built-in, argument parser and the
interactive input loop, with theorems checking the specification's claims.
-/

namespace SimpleShell

/-- Maximum character input (`#define CHARS_MAX 100`, main.cpp:18). -/
def CHARS_MAX : Nat := 100

/-- Maximum number of arguments (`#define ARGS_MAX 10`, main.cpp:20). -/
def ARGS_MAX : Nat := 10

/-- `enum ProcessType {FORE, BACK}` (main.cpp:26): whether the spawned
process runs in the foreground or the background. -/
inductive ProcessType
  | FORE
  | BACK
  deriving DecidableEq, Repr

/-- `bgProcIDs.remove(pid)` (main.cpp:66): `std::list<int>::remove` deletes
every element equal to `p`. -/
def listRemove (t : List Nat) (p : Nat) : List Nat :=
  t.filter (fun q => q ≠ p)

/-- `bgProcIDs.push_back(pid)` (main.cpp:142): append at the end. -/
def pushBack (t : List Nat) (p : Nat) : List Nat :=
  t ++ [p]

/-! ## Job-table step relation (background spawns and observed terminations) -/

/-- One shell-visible job-table event: a background spawn registering pid `p`
(main.cpp:142) or the processing of a termination notification for pid `p`
by `child_handler` (main.cpp:65-66). -/
inductive Event
  | spawnBg (p : Nat)
  | reap (p : Nat)
  deriving DecidableEq, Repr

/-- Effect of one event on the job table `bgProcIDs`: a background spawn
does `push_back`, a processed termination does `wait` + `remove`. -/
def applyEvent (t : List Nat) : Event → List Nat
  | Event.spawnBg p => pushBack t p
  | Event.reap p => listRemove t p

/-- Run a sequence of job-table events from the empty table created at
shell startup (main.cpp:38). -/
def runEvents (es : List Event) : List Nat :=
  es.foldl applyEvent []

/-- Validity of a trace with respect to the operating system's pid
discipline, tracking every pid already mentioned: a background spawn only
yields a pid that no earlier event mentioned (a fresh child's pid is not
that of any tracked or already-terminated process), while termination
notifications are unconstrained (stray notifications for foreground
children are allowed). -/
def validAux (seen : List Nat) : List Event → Bool
  | [] => true
  | Event.spawnBg p :: es => decide (p ∉ seen) && validAux (p :: seen) es
  | Event.reap p :: es => validAux (p :: seen) es

/-- A trace is valid when it is valid starting from no pids seen. -/
def validTrace (es : List Event) : Bool :=
  validAux [] es

/-! ## Signal-driven reaper -/

/-- `child_handler` (main.cpp:61-67) as a function of the job table and the
queue of already-terminated, reapable children: it re-arms the signal,
calls `wait(NULL)` exactly once, reaping one terminated child, and removes
that single pid from `bgProcIDs`. It returns the new table together with
the children that remain terminated-but-unreaped after the invocation.
(When no child is reapable the handler would block in `wait`; the handler
is only ever invoked after at least one child terminated, so the empty
case is modelled as a no-op.) -/
def child_handler (table : List Nat) (reapable : List Nat) : List Nat × List Nat :=
  match reapable with
  | [] => (table, [])
  | p :: rest => (listRemove table p, rest)

/-! ## `killbg` built-in -/

/-- Externally visible actions performed by `killBgProcs`. -/
inductive KAction
  | sendTerm (p : Nat)
  | sleepUs (us : Nat)
  deriving DecidableEq, Repr

/-- `killBgProcs` (main.cpp:179-195): iterate over `bgProcIDs`, for each pid
`kill(pid, SIGINT)` then `usleep(1000)`, and finally `bgProcIDs.clear()`.
Returns the list of performed actions and the final table. -/
def killBgProcs (table : List Nat) : List KAction × List Nat :=
  (table.foldr (fun p acc => KAction.sendTerm p :: KAction.sleepUs 1000 :: acc) [], [])

/-- The pids to which termination was requested, in order. -/
def termRequests (as : List KAction) : List Nat :=
  as.filterMap (fun a =>
    match a with
    | KAction.sendTerm p => some p
    | KAction.sleepUs _ => none)

/-! ## Process launcher -/

/-- The three outcomes of `fork()` at main.cpp:128: `failed` is `pid < 0`,
`inChild` is `pid == 0`, `inParent pid` is `pid > 0` with the child's pid. -/
inductive ForkResult
  | failed
  | inChild
  | inParent (pid : Nat)
  deriving DecidableEq, Repr

/-- Observable actions of one `execute` call. -/
inductive ExecEvent
  | execImage (cmd : String)
  | printed (msg : String)
  | exitedWith (code : Nat)
  | waitedFor (pid : Nat)
  deriving DecidableEq, Repr

/-- `execute` (main.cpp:125-145), one branch per `fork` outcome, with
`execOk` telling whether `execvp` succeeds. In the child: replace the image
on success, else print `cmd: command not found` and `exit(1)`. In the
parent: `waitpid(pid, NULL, 0)` when `pt == FORE`, `push_back(pid)` when
`pt == BACK`. When `fork` fails neither `if` branch applies and the
function falls through. Returns the performed actions and the job table. -/
def execute (cmd : String) (pt : ProcessType) (table : List Nat)
    (fr : ForkResult) (execOk : Bool) : List ExecEvent × List Nat :=
  match fr with
  | ForkResult.inChild =>
      if execOk then ([ExecEvent.execImage cmd], table)
      else ([ExecEvent.printed (cmd ++ ": command not found"), ExecEvent.exitedWith 1], table)
  | ForkResult.inParent pid =>
      match pt with
      | ProcessType.FORE => ([ExecEvent.waitedFor pid], table)
      | ProcessType.BACK => ([], pushBack table pid)
  | ForkResult.failed => ([], table)

/-- Result of dispatching one parsed command line in `main`
(main.cpp:244-252). -/
inductive LineResult
  | builtinCd
  | builtinKillbg (r : List KAction × List Nat)
  | shellExit (code : Nat)
  | ran (r : List ExecEvent × List Nat)
  deriving DecidableEq, Repr

/-- The built-in dispatch of the interactive loop (main.cpp:244-252): `cd`,
`killbg` and `exit(0)` are handled directly; every other command goes to
`execute`. -/
def dispatch (cmd : String) (pt : ProcessType) (table : List Nat)
    (fr : ForkResult) (execOk : Bool) : LineResult :=
  if cmd = "cd" then LineResult.builtinCd
  else if cmd = "killbg" then LineResult.builtinKillbg (killBgProcs table)
  else if cmd = "exit" then LineResult.shellExit 0
  else LineResult.ran (execute cmd pt table fr execOk)

/-! ## Argument parser -/

/-- Outcome of `getArgs`: either the filled `my_argv` contents plus the
process type, or the first undefined behaviour the loop runs into —
a write to `my_argv[idx]` with `idx ≥ ARGS_MAX` (out of the bounds of
`static char *my_argv[ARGS_MAX]`, main.cpp:34), or a dereference of the
`NULL` token pointer. -/
inductive GetArgsResult
  | ok (argv : List String) (pt : ProcessType)
  | oobWrite (idx : Nat)
  | nullDeref
  deriving DecidableEq, Repr

/-- The token loop of `getArgs` (main.cpp:82-115). The loop condition is
`tok != NULL || argNum >= ARGS_MAX`. With a token in hand it checks
`tok[strlen(tok)-1] != '&'`: a clean token is copied into
`my_argv[argNum]` (an out-of-bounds write when `argNum ≥ ARGS_MAX`) and the
loop advances; a token ending in `'&'` sets background mode and returns at
once, copying `strlen(tok)-1` characters first when the token is longer
than the lone marker. When the tokens run out, `tok` is `NULL`: the loop
exits (foreground) only if `argNum < ARGS_MAX`; otherwise the condition
`argNum >= ARGS_MAX` keeps the loop alive and `tok[strlen(tok)-1]`
dereferences `NULL`. -/
def getArgsLoop : List String → Nat → List String → GetArgsResult
  | t :: rest, argNum, acc =>
      if t.back ≠ '&' then
        if ARGS_MAX ≤ argNum then GetArgsResult.oobWrite argNum
        else getArgsLoop rest (argNum + 1) (acc ++ [t])
      else
        if 1 < t.length then
          if ARGS_MAX ≤ argNum then GetArgsResult.oobWrite argNum
          else GetArgsResult.ok (acc ++ [t.dropRight 1]) ProcessType.BACK
        else GetArgsResult.ok acc ProcessType.BACK
  | [], argNum, acc =>
      if ARGS_MAX ≤ argNum then GetArgsResult.nullDeref
      else GetArgsResult.ok acc ProcessType.FORE

/-- Worker for the `strtok(input, " ")` iteration: scan the characters,
collecting the current chunk in reverse; a space ends the chunk (empty
chunks between consecutive spaces are skipped, as `strtok` does). -/
def tokenizeAux : List Char → List Char → List String
  | [], cur => if cur = [] then [] else [String.mk cur.reverse]
  | c :: cs, cur =>
      if c = ' ' then
        if cur = [] then tokenizeAux cs []
        else String.mk cur.reverse :: tokenizeAux cs []
      else tokenizeAux cs (c :: cur)

/-- `strtok(input, " ")` iteration (main.cpp:79, 96): the maximal non-empty
chunks of the input between spaces. -/
def tokenize (s : String) : List String :=
  tokenizeAux s.toList []

/-- `getArgs` (main.cpp:73-118): tokenize the raw input and run the loop
with `argNum = 0` and an empty `my_argv`. -/
def getArgs (input : String) : GetArgsResult :=
  getArgsLoop (tokenize input) 0 []

/-! ## Interactive input loop -/

/-- Outcome of accumulating one input line: the collected line, or an
out-of-bounds write at byte index `idx` of the `CHARS_MAX`-byte buffer. -/
inductive ReadResult
  | okLine (line : List Char)
  | oobWrite (idx : Nat)
  deriving DecidableEq, Repr

/-- The character-accumulation loop of `main` (main.cpp:225-268, default
case at 264-267): each character before the newline is appended to the
100-byte `input` buffer by `strncat(input, &c, 1)` with no bounds check.
Appending to a string of length `len` writes the character at byte `len`
and the terminator at byte `len + 1`; the first write outside the buffer
of capacity `CHARS_MAX` happens as soon as `len + 1 ≥ CHARS_MAX`. -/
def readLoop : List Char → List Char → ReadResult
  | [], acc => ReadResult.okLine acc
  | c :: cs, acc =>
      if CHARS_MAX ≤ acc.length + 1 then ReadResult.oobWrite (acc.length + 1)
      else readLoop cs (acc ++ [c])

/-- Accumulate a whole line (the characters before the newline) into the
freshly emptied `input` buffer (main.cpp:261 `bzero(input, CHARS_MAX)`). -/
def readLine (cs : List Char) : ReadResult :=
  readLoop cs []

/-! ## Helper lemmas -/

lemma mem_listRemove {t : List Nat} {p q : Nat} :
    p ∈ listRemove t q ↔ p ∈ t ∧ p ≠ q := by
  simp [listRemove]

@[simp] lemma reap_ne_spawnBg {p q : Nat} : Event.reap p ≠ Event.spawnBg q :=
  fun h => Event.noConfusion h

@[simp] lemma spawnBg_ne_reap {p q : Nat} : Event.spawnBg p ≠ Event.reap q :=
  fun h => Event.noConfusion h

lemma nodup_listRemove {t : List Nat} (h : t.Nodup) (q : Nat) :
    (listRemove t q).Nodup :=
  h.filter _

/-- A pid already seen by the validity check is never spawned later in a
valid trace. -/
lemma valid_no_respawn :
    ∀ (es : List Event) (seen : List Nat) (p : Nat),
      validAux seen es = true → p ∈ seen → Event.spawnBg p ∉ es := by
  intro es
  induction es with
  | nil => intro seen p _ _ h; exact absurd h (List.not_mem_nil _)
  | cons e es ih =>
    intro seen p hv hp hmem
    cases e with
    | spawnBg q =>
      simp only [validAux, Bool.and_eq_true, decide_eq_true_eq] at hv
      rcases List.mem_cons.mp hmem with h | h
      · injection h with hpq; subst hpq; exact hv.1 hp
      · exact ih (q :: seen) p hv.2 (List.mem_cons_of_mem _ hp) h
    | reap q =>
      simp only [validAux] at hv
      rcases List.mem_cons.mp hmem with h | h
      · exact Event.noConfusion h
      · exact ih (q :: seen) p hv (List.mem_cons_of_mem _ hp) h

/-- Main induction for the job-table invariant, generalized over a start
table whose entries are all already seen. -/
lemma runFrom_spec :
    ∀ (es : List Event) (t seen : List Nat),
      (∀ q ∈ t, q ∈ seen) → t.Nodup → validAux seen es = true →
      (es.foldl applyEvent t).Nodup ∧
        ∀ p, p ∈ es.foldl applyEvent t ↔
          ((Event.spawnBg p ∈ es ∧ Event.reap p ∉ es) ∨
            (p ∈ t ∧ Event.reap p ∉ es)) := by
  intro es
  induction es with
  | nil =>
    intro t seen _ hnd _
    refine ⟨hnd, fun p => ?_⟩
    simp
  | cons e es ih =>
    intro t seen hsub hnd hv
    cases e with
    | spawnBg q =>
      simp only [validAux, Bool.and_eq_true, decide_eq_true_eq] at hv
      obtain ⟨hq, hv'⟩ := hv
      have hqt : q ∉ t := fun h => hq (hsub q h)
      have hsub' : ∀ r ∈ pushBack t q, r ∈ q :: seen := by
        intro r hr
        rcases List.mem_append.mp hr with h | h
        · exact List.mem_cons_of_mem _ (hsub r h)
        · simp only [List.mem_singleton] at h; subst h
          exact List.mem_cons_self _ _
      have hnd' : (pushBack t q).Nodup := by
        simp only [pushBack, List.nodup_append, List.nodup_singleton,
          List.disjoint_singleton]
        exact ⟨hnd, trivial, hqt⟩
      obtain ⟨hnodup, hmem⟩ := ih (pushBack t q) (q :: seen) hsub' hnd' hv'
      refine ⟨hnodup, fun p => ?_⟩
      have h1 : p ∈ pushBack t q ↔ (p ∈ t ∨ p = q) := by simp [pushBack]
      have h2 : Event.spawnBg p ∈ Event.spawnBg q :: es ↔
          (p = q ∨ Event.spawnBg p ∈ es) := by simp
      have h3 : Event.reap p ∈ Event.spawnBg q :: es ↔ Event.reap p ∈ es := by simp
      rw [List.foldl_cons]
      show p ∈ es.foldl applyEvent (pushBack t q) ↔ _
      rw [hmem p, h1, h2, h3]
      tauto
    | reap q =>
      simp only [validAux] at hv
      have hsub' : ∀ r ∈ listRemove t q, r ∈ q :: seen := fun r hr =>
        List.mem_cons_of_mem _ (hsub r (mem_listRemove.mp hr).1)
      have hnd' := nodup_listRemove hnd q
      obtain ⟨hnodup, hmem⟩ := ih (listRemove t q) (q :: seen) hsub' hnd' hv
      have hnospawn : Event.spawnBg q ∉ es :=
        valid_no_respawn es (q :: seen) q hv (List.mem_cons_self _ _)
      refine ⟨hnodup, fun p => ?_⟩
      have h1 : p ∈ listRemove t q ↔ p ∈ t ∧ p ≠ q := mem_listRemove
      have h2 : Event.spawnBg p ∈ Event.reap q :: es ↔ Event.spawnBg p ∈ es := by simp
      have h3 : Event.reap p ∈ Event.reap q :: es ↔ (p = q ∨ Event.reap p ∈ es) := by
        simp
      rw [List.foldl_cons]
      show p ∈ es.foldl applyEvent (listRemove t q) ↔ _
      rw [hmem p, h1, h2, h3]
      by_cases hpq : p = q
      · subst hpq
        tauto
      · tauto

/-- The termination requests issued by `killBgProcs` are exactly the table
entries, in order. -/
lemma termRequests_killBgProcs :
    ∀ table : List Nat, termRequests (killBgProcs table).1 = table := by
  intro table
  induction table with
  | nil => rfl
  | cons p rest ih =>
    simp only [killBgProcs, List.foldr_cons, termRequests, List.filterMap_cons] at ih ⊢
    exact congrArg (List.cons p) ih

/-- Running the token loop over a clean run of tokens (none ending in the
marker) followed by a token ending in `'&'` stops at that token, in
background mode, with the marker stripped, provided the argument slots do
not run out first. -/
lemma getArgsLoop_amp :
    ∀ (pre : List String) (argNum : Nat) (acc : List String) (t : String)
      (suf : List String),
      (∀ s ∈ pre, s.back ≠ '&') → argNum + pre.length < ARGS_MAX →
      t.back = '&' →
      getArgsLoop (pre ++ t :: suf) argNum acc =
        GetArgsResult.ok
          (acc ++ pre ++ (if 1 < t.length then [t.dropRight 1] else []))
          ProcessType.BACK := by
  intro pre
  induction pre with
  | nil =>
    intro argNum acc t suf _ hlen hamp
    have hlt : ¬ ARGS_MAX ≤ argNum := by simp at hlen; omega
    by_cases ht : 1 < t.length
    · simp [getArgsLoop, hamp, ht, hlt]
    · simp [getArgsLoop, hamp, ht]
  | cons s pre ih =>
    intro argNum acc t suf hpre hlen hamp
    have hs : s.back ≠ '&' := hpre s (by simp)
    have hlt : ¬ ARGS_MAX ≤ argNum := by simp at hlen; omega
    rw [List.cons_append]
    show getArgsLoop (s :: (pre ++ t :: suf)) argNum acc = _
    simp only [getArgsLoop]
    rw [if_pos hs, if_neg hlt]
    rw [ih (argNum + 1) (acc ++ [s]) t suf (fun r hr => hpre r (by simp [hr]))
      (by simp at hlen ⊢; omega) hamp]
    simp

/-- With a clean token still in hand once all `ARGS_MAX` slots are used,
the loop body writes `my_argv[argNum]` out of bounds. -/
lemma getArgsLoop_overflow :
    ∀ (ts : List String) (argNum : Nat) (acc : List String),
      (∀ s ∈ ts, s.back ≠ '&') → argNum ≤ ARGS_MAX →
      ARGS_MAX < argNum + ts.length →
      getArgsLoop ts argNum acc = GetArgsResult.oobWrite ARGS_MAX := by
  intro ts
  induction ts with
  | nil =>
    intro argNum acc _ h1 h2
    exfalso; simp at h2; omega
  | cons t rest ih =>
    intro argNum acc hclean h1 h2
    have ht : t.back ≠ '&' := hclean t (by simp)
    by_cases hge : ARGS_MAX ≤ argNum
    · have hEq : argNum = ARGS_MAX := le_antisymm h1 hge
      subst hEq
      simp [getArgsLoop, ht, hge]
    · simp only [getArgsLoop]
      rw [if_pos ht, if_neg hge]
      exact ih (argNum + 1) (acc ++ [t]) (fun s hs => hclean s (by simp [hs]))
        (by omega) (by simp at h2 ⊢; omega)

/-- When the clean tokens run out exactly as `argNum` reaches `ARGS_MAX`,
the loop condition `tok != NULL || argNum >= ARGS_MAX` stays true with
`tok == NULL` and the body dereferences the null token. -/
lemma getArgsLoop_nullDeref :
    ∀ (ts : List String) (argNum : Nat) (acc : List String),
      (∀ s ∈ ts, s.back ≠ '&') → argNum + ts.length = ARGS_MAX →
      getArgsLoop ts argNum acc = GetArgsResult.nullDeref := by
  intro ts
  induction ts with
  | nil =>
    intro argNum acc _ h
    simp at h
    simp [getArgsLoop, h]
  | cons t rest ih =>
    intro argNum acc hclean h
    have ht : t.back ≠ '&' := hclean t (by simp)
    have hlt : ¬ ARGS_MAX ≤ argNum := by simp at h; omega
    simp only [getArgsLoop]
    rw [if_pos ht, if_neg hlt]
    exact ih (argNum + 1) (acc ++ [t]) (fun s hs => hclean s (by simp [hs]))
      (by simp at h ⊢; omega)

/-- Bounds behaviour of the character-accumulation loop, generalized over
the partially filled buffer. -/
lemma readLoop_spec :
    ∀ (cs acc : List Char), acc.length < CHARS_MAX →
      (acc.length + cs.length < CHARS_MAX →
        readLoop cs acc = ReadResult.okLine (acc ++ cs)) ∧
        (CHARS_MAX ≤ acc.length + cs.length →
          readLoop cs acc = ReadResult.oobWrite CHARS_MAX) := by
  intro cs
  induction cs with
  | nil =>
    intro acc hacc
    refine ⟨fun _ => by simp [readLoop], fun h => ?_⟩
    exfalso; simp at h; omega
  | cons c cs ih =>
    intro acc hacc
    by_cases hfull : CHARS_MAX ≤ acc.length + 1
    · have h99 : acc.length + 1 = CHARS_MAX := by omega
      refine ⟨fun h => ?_, fun _ => ?_⟩
      · exfalso; simp at h; omega
      · simp [readLoop, hfull, h99]
    · have hrec := ih (acc ++ [c]) (by simp; omega)
      refine ⟨fun h => ?_, fun h => ?_⟩
      · simp only [readLoop]
        rw [if_neg hfull, hrec.1 (by simp at h ⊢; omega)]
        simp
      · simp only [readLoop]
        rw [if_neg hfull]
        exact hrec.2 (by simp at h ⊢; omega)

/-! ## Claim theorems -/

/-- C1: for every valid sequence of background spawns and observed
terminations, the job table `bgProcIDs` holds exactly the set of handles
that were spawned in background mode and not yet reaped: no duplicates,
and a handle is present if and only if a background spawn registered it
and no termination for it has been processed. -/
theorem jobTable_exact_tracking (es : List Event) (h : validTrace es = true) :
    (runEvents es).Nodup ∧
      ∀ p, p ∈ runEvents es ↔ (Event.spawnBg p ∈ es ∧ Event.reap p ∉ es) := by
  have hmain := runFrom_spec es [] []
    (fun q hq => absurd hq (List.not_mem_nil _)) List.nodup_nil h
  refine ⟨hmain.1, fun p => ?_⟩
  rw [show runEvents es = es.foldl applyEvent [] from rfl, hmain.2 p]
  simp

/-- Witness for C1 at the trace spawn 3, spawn 5, reap 3, spawn 7. -/
theorem jobTable_exact_tracking_witness :
    validTrace [Event.spawnBg 3, Event.spawnBg 5, Event.reap 3,
        Event.spawnBg 7] = true ∧
      (5 ∈ runEvents [Event.spawnBg 3, Event.spawnBg 5, Event.reap 3,
          Event.spawnBg 7] ↔
        (Event.spawnBg 5 ∈ [Event.spawnBg 3, Event.spawnBg 5, Event.reap 3,
            Event.spawnBg 7] ∧
          Event.reap 5 ∉ [Event.spawnBg 3, Event.spawnBg 5, Event.reap 3,
            Event.spawnBg 7])) :=
  ⟨by decide, (jobTable_exact_tracking _ (by decide)).2 5⟩

/-- C2 (code bug): one invocation of `child_handler` with three terminated,
reapable background children (pids 1, 2, 3, table [1, 2, 3]) reaps and
removes only the first one; two terminated children stay unreaped and
their handles stay in the table, contrary to the claim that a single
invocation drains all currently-reapable children. -/
theorem child_handler_reaps_only_one :
    child_handler [1, 2, 3] [1, 2, 3] = ([2, 3], [2, 3]) ∧
      (child_handler [1, 2, 3] [1, 2, 3]).2 ≠ [] ∧
      (child_handler [1, 2, 3] [1, 2, 3]).1.length = 2 := by
  decide

/-- C3: `killBgProcs` on a table with N entries sends exactly one
termination request per tracked handle — the requested pids are exactly
the table's entries in order, N in total — and leaves the job table empty
on return (`bgProcIDs.clear()`); the children's exits are only requested,
never awaited beyond the fixed 1000 microsecond sleeps. -/
theorem killBgProcs_drains (table : List Nat) :
    (killBgProcs table).2 = [] ∧
      termRequests (killBgProcs table).1 = table ∧
      (termRequests (killBgProcs table).1).length = table.length := by
  refine ⟨rfl, termRequests_killBgProcs table, ?_⟩
  rw [termRequests_killBgProcs table]

/-- C4 (code bug): when `fork` fails, `execute` matches neither the
`pid == 0` branch nor the `pid > 0` branch and returns silently: no
message is printed, nothing happens at all. The interpreter does continue
its loop, but the failure is silently ignored rather than reported. -/
theorem execute_spawn_failure_silent :
    execute "ls" ProcessType.FORE [] ForkResult.failed true = ([], []) ∧
      ∀ m, ExecEvent.printed m ∉
        (execute "ls" ProcessType.FORE [] ForkResult.failed true).1 :=
  ⟨rfl, fun _ h => List.not_mem_nil _ h⟩

/-- C5: in the parent, a foreground launch performs exactly a blocking
`waitpid` on the specific child pid before returning (its status collected
into NULL and discarded) and leaves the table alone, while a background
launch registers the pid in the job table and returns without any wait. -/
theorem execute_wait_policy (cmd : String) (table : List Nat) (pid : Nat) :
    execute cmd ProcessType.FORE table (ForkResult.inParent pid) true
        = ([ExecEvent.waitedFor pid], table) ∧
      execute cmd ProcessType.BACK table (ForkResult.inParent pid) true
        = ([], pushBack table pid) ∧
      ExecEvent.waitedFor pid ∉
        (execute cmd ProcessType.BACK table (ForkResult.inParent pid) true).1 :=
  ⟨rfl, rfl, fun h => List.not_mem_nil _ h⟩

/-- C6 (code bug): nothing blocks `SIGCHLD` between `fork`'s return in the
parent and `bgProcIDs.push_back(pid)`, so for an instantly exiting child
the handler can process the termination (reap + `remove`, a no-op on the
not-yet-registered pid) before the registration runs. That interleaving —
the table operations in the order remove-then-register — leaves the
already-reaped pid 7 as a stale table entry, whereas the
registration-first interleaving leaves the table empty. -/
theorem bg_spawn_registration_race :
    runEvents [Event.reap 7, Event.spawnBg 7] = [7] ∧
      runEvents [Event.spawnBg 7, Event.reap 7] = [] := by
  decide

/-- C7: parsing `"ls -l &"` yields argument vector `[ls, -l]` (so command
`ls`, its first entry, main.cpp:240) in background mode, parsing `"ls -l"`
yields the same vector in foreground mode, and in general a token ending
in the `'&'` marker — the marker alone or attached to a word — puts the
whole line in background mode, with the marker character stripped before
the argument vector is completed. -/
theorem getArgs_parsing (pre suf : List String) (t : String)
    (hpre : ∀ s ∈ pre, s.back ≠ '&') (hlen : pre.length < ARGS_MAX)
    (hamp : t.back = '&') :
    getArgs "ls -l &" = GetArgsResult.ok ["ls", "-l"] ProcessType.BACK ∧
      getArgs "ls -l" = GetArgsResult.ok ["ls", "-l"] ProcessType.FORE ∧
      getArgsLoop (pre ++ t :: suf) 0 [] =
        GetArgsResult.ok
          (pre ++ (if 1 < t.length then [t.dropRight 1] else []))
          ProcessType.BACK := by
  refine ⟨by decide, by decide, ?_⟩
  have h := getArgsLoop_amp pre 0 [] t suf hpre (by simpa using hlen) hamp
  simpa using h

/-- Witness for C7 on the token list [cat, out&, x]. -/
theorem getArgs_parsing_witness :
    getArgsLoop ["cat", "out&", "x"] 0 [] =
      GetArgsResult.ok ["cat", "out"] ProcessType.BACK := by
  have h := (getArgs_parsing ["cat"] ["x"] "out&"
    (by decide) (by decide) (by decide)).2.2
  exact h.trans (by decide)

/-- C8: when `execvp` fails in the child, the child prints
`cmd: command not found` to standard output and exits with status 1; in
the parent the dispatch of a non-built-in command never produces the
interpreter's own exit (only the `exit` built-in does), so the loop
continues and the child's status 1 does not reach the interpreter's exit
code. -/
theorem command_not_found_behavior (cmd : String) (table : List Nat)
    (pid : Nat) (h1 : cmd ≠ "cd") (h2 : cmd ≠ "killbg") (h3 : cmd ≠ "exit") :
    execute cmd ProcessType.FORE table ForkResult.inChild false =
        ([ExecEvent.printed (cmd ++ ": command not found"),
          ExecEvent.exitedWith 1], table) ∧
      dispatch cmd ProcessType.FORE table (ForkResult.inParent pid) false =
        LineResult.ran ([ExecEvent.waitedFor pid], table) ∧
      ∀ c, dispatch cmd ProcessType.FORE table (ForkResult.inParent pid) false ≠
        LineResult.shellExit c := by
  refine ⟨rfl, ?_, ?_⟩
  · simp [dispatch, h1, h2, h3, execute]
  · intro c
    simp [dispatch, h1, h2, h3, execute]

/-- Witness for C8 at the unknown command `foo`. -/
theorem command_not_found_behavior_witness :
    execute "foo" ProcessType.FORE [] ForkResult.inChild false =
      ([ExecEvent.printed ("foo" ++ ": command not found"),
        ExecEvent.exitedWith 1], []) :=
  (command_not_found_behavior "foo" [] 1 (by decide) (by decide) (by decide)).1

/-- C9: the argument loop is memory-safe only for lines of at most
`ARGS_MAX` tokens. With more than `ARGS_MAX` clean tokens (none ending in
the marker) the loop writes `my_argv[ARGS_MAX]`, past the end of the
10-element array; and whenever the token pointer becomes null while
`argNum` has reached `ARGS_MAX`, the loop condition
`tok != NULL || argNum >= ARGS_MAX` keeps the loop alive and the body
dereferences the null token — which is exactly where a line of exactly
`ARGS_MAX` clean tokens ends up. -/
theorem getArgs_unsafe_beyond_max (ts acc : List String) (n : Nat)
    (hclean : ∀ s ∈ ts, s.back ≠ '&') :
    (ARGS_MAX < ts.length →
        getArgsLoop ts 0 [] = GetArgsResult.oobWrite ARGS_MAX) ∧
      (ARGS_MAX ≤ n → getArgsLoop [] n acc = GetArgsResult.nullDeref) ∧
      (ts.length = ARGS_MAX →
        getArgsLoop ts 0 [] = GetArgsResult.nullDeref) := by
  refine ⟨fun h => ?_, fun h => ?_, fun h => ?_⟩
  · exact getArgsLoop_overflow ts 0 [] hclean (by omega) (by omega)
  · simp [getArgsLoop, h]
  · exact getArgsLoop_nullDeref ts 0 [] hclean (by omega)

/-- Witness for C9 on eleven clean one-letter tokens. -/
theorem getArgs_unsafe_beyond_max_witness :
    ARGS_MAX <
        (["a", "b", "c", "d", "e", "f", "g", "h", "i", "j", "k"] :
          List String).length ∧
      getArgsLoop ["a", "b", "c", "d", "e", "f", "g", "h", "i", "j", "k"] 0 []
        = GetArgsResult.oobWrite ARGS_MAX :=
  ⟨by decide,
    (getArgs_unsafe_beyond_max
      ["a", "b", "c", "d", "e", "f", "g", "h", "i", "j", "k"] [] 0
      (by decide)).1 (by decide)⟩

/-- C10: the input loop appends every read character to the fixed
`CHARS_MAX`-byte heap buffer with no bounds check, so a line shorter than
`CHARS_MAX` characters is collected intact, while any line of `CHARS_MAX`
or more characters before the newline writes past the end of the buffer
(the terminator of the 100th appended character lands at byte index 100
of the 100-byte buffer). -/
theorem input_loop_bounds (cs : List Char) :
    (cs.length < CHARS_MAX → readLine cs = ReadResult.okLine cs) ∧
      (CHARS_MAX ≤ cs.length → readLine cs = ReadResult.oobWrite CHARS_MAX) := by
  have h := readLoop_spec cs [] (by decide)
  refine ⟨fun hc => ?_, fun hc => ?_⟩
  · have h1 := h.1 (by simpa using hc)
    simpa [readLine] using h1
  · show readLoop cs [] = _
    exact h.2 (by simpa using hc)

/-- Witness for C10 on a line of exactly 100 characters. -/
theorem input_loop_bounds_witness :
    CHARS_MAX ≤ (List.replicate 100 'x').length ∧
      readLine (List.replicate 100 'x') = ReadResult.oobWrite CHARS_MAX :=
  ⟨by decide, (input_loop_bounds (List.replicate 100 'x')).2 (by decide)⟩

end SimpleShell
